import Mathlib

/-!
Verification of the GFF module of `bioino` (`bioino/gff.py`).

The development shallowly embeds the program:

* Python `dict` objects are embedded as association lists whose insert
  operation overwrites the value of an existing key in place and appends a
  fresh key at the end, exactly as CPython dicts preserve insertion order.
* Python strings are embedded as `String` where only equality matters and as
  `List Char` for the attribute codec, whose behaviour is defined by
  character-level splitting (`str.split` is `List.splitOn`; both return
  `[""]` on the empty string and never return an empty list).
* Python integers are embedded as `Int`.  The source multiplies offsets by
  the float constants `1.` / `-1.` and then truncates with `int(...)`; for
  every integer of magnitude below 2^53 (far above any genomic coordinate)
  this is exact, so the embedding multiplies by the integers `1` / `-1`.
  Python's floor division `//` is `Int.fdiv`.
* `range(a, b)` is `intRange a b`.
* Exceptions (`KeyError` on a missing `Name` attribute, `AttributeError`
  when no feature qualified, `ValueError` from `max` on an empty dict, a
  failing `assert`, the explicit `IOError`) are embedded as `none` /
  `Except.error` results.
-/

/-! ## Python dictionaries as insertion-ordered association lists -/

/-- Python `d[k] = v`: overwrite the value at the first (and in a real dict,
only) occurrence of `k` keeping its position, else append `(k, v)`. -/
def dictInsert {α β : Type} [DecidableEq α] : List (α × β) → α → β → List (α × β)
  | [], k, v => [(k, v)]
  | p :: rest, k, v => if p.1 = k then (k, v) :: rest else p :: dictInsert rest k v

/-- Python `d[k]` / `k in d`: first binding of `k`, if any. -/
def dictGet {α β : Type} [DecidableEq α] : List (α × β) → α → Option β
  | [], _ => none
  | p :: rest, k => if p.1 = k then some p.2 else dictGet rest k

/-- Python `dict(pairs)`: fold the pairs into an empty dict. -/
def dictOfPairs {α β : Type} [DecidableEq α] (ps : List (α × β)) : List (α × β) :=
  ps.foldl (fun d p => dictInsert d p.1 p.2) []

/-! ## Attribute codec (`_get_gff_attributes` and the `__str__` encoding)

Attribute text is embedded as `List Char`.  In the source, each item of
`splits_on_equal_sign` is the result of `str.split`, hence a nonempty list,
so the source's `item[-1]` and `item[0]` are total; they are embedded as
`getLastD` / `headD` with an irrelevant default. -/

/-- `_get_gff_attributes` from `bioino/gff.py` (lines 156-163). -/
def _get_gff_attributes (x : List Char) : List (List Char × List Char) :=
  let splits_on_equal_sign := (x.splitOn '=').map (fun item => item.splitOn ';')
  let attributes := splits_on_equal_sign.map (fun item => item.getLastD [])
  let values := (splits_on_equal_sign.drop 1).map (fun item => item.headD [])
  dictOfPairs (attributes.zip values)

/-- The attribute rendering of `GffLine.__str__` (line 66):
`';'.join(f'{key}={val}' for key, val in attributes.items())`. -/
def encodeAttributes (m : List (List Char × List Char)) : List Char :=
  List.intercalate [';'] (m.map (fun p => p.1 ++ '=' :: p.2))

/-! ## Record model -/

/-- A value stored in the attribute dict: parsed attributes are strings, the
synthesized `offset` is an integer. -/
inductive AttrValue : Type
  | str (s : String)
  | int (i : Int)
deriving DecidableEq, Repr

/-- Column-9 attribute dictionary. -/
abbrev AttrDict : Type := List (String × AttrValue)

/-- Columns 1-8 of a GFF line (`GffColumns`); `start` and `end` are the
integers produced by `read_gff`.  `end` is a Lean keyword, hence `end_`. -/
structure GffColumns : Type where
  seqid : String
  source : String
  feature : String
  start : Int
  end_ : Int
  score : String
  strand : String
  phase : String
deriving DecidableEq, Repr

/-- A GFF record (`GffLine`).  The metadata carried along from the header is
opaque to everything verified here and is embedded as an identifier. -/
structure GffLine : Type where
  metadata : Nat
  columns : GffColumns
  attributes : AttrDict
deriving DecidableEq, Repr

/-- `_GFF_FEATURE_BLOCKLIST` (line 17). -/
def _GFF_FEATURE_BLOCKLIST : List String := ["region", "repeat_region"]

/-! ## The coordinate lookup table

`defaultdict(list)` keyed by `Int` coordinates, embedded as an
insertion-ordered association list. -/

abbrev Table : Type := List (Int × List GffLine)

/-- First binding of coordinate `i`, if present. -/
def tableFind? : Table → Int → Option (List GffLine)
  | [], _ => none
  | p :: rest, i => if p.1 = i then some p.2 else tableFind? rest i

/-- `lookup_table[i]` as read by the final assertion: missing keys read as
`[]` (a fresh `defaultdict` entry). -/
def tableGet (t : Table) (i : Int) : List GffLine :=
  (tableFind? t i).getD []

/-- `lookup_table[i].append(r)` on a `defaultdict(list)`. -/
def tableAppend : Table → Int → GffLine → Table
  | [], i, r => [(i, [r])]
  | p :: rest, i, r =>
    if p.1 = i then (p.1, p.2 ++ [r]) :: rest else p :: tableAppend rest i r

/-- Python dict assignment `t[i] = v`. -/
def tableSet : Table → Int → List GffLine → Table
  | [], i, v => [(i, v)]
  | p :: rest, i, v => if p.1 = i then (i, v) :: rest else p :: tableSet rest i v

/-- `lookup_table |= gap_table` (line 402): assign every binding of `u` into
`t`, in `u`'s insertion order. -/
def mergeTable (t u : Table) : Table :=
  u.foldl (fun acc p => tableSet acc p.1 p.2) t

/-- A `for i in ks: lookup_table[i].append(f i)` loop. -/
def fillRange (t : Table) (ks : List Int) (f : Int → GffLine) : Table :=
  ks.foldl (fun acc i => tableAppend acc i (f i)) t

/-- Python `range(a, b)` over integers. -/
def intRange (a b : Int) : List Int :=
  List.map (fun k : Nat => a + (k : Int)) (List.range (b - a).toNat)

/-- Python `max(iterable)`: `none` models the `ValueError` on an empty
iterable.  Applied to a dict it maximizes over the keys. -/
def pyMax? : List Int → Option Int
  | [] => none
  | x :: xs => some (xs.foldl max x)

/-- The keys of a table, in insertion order. -/
def tableKeys (t : Table) : List Int := t.map (fun p => p.1)

/-! ## Gap-Fill Engine (`_gapfill_table`, lines 295-358)

`GffLine.copy` is a value copy, so in this pure embedding the `.copy()`
calls are the identity; the store-level guarantee of `copy` is verified
separately below.  A missing or non-string `Name` attribute raises in
Python (`KeyError` / `TypeError` on `str + int`) and is embedded as
`none`. -/

/-- Read the `Name` attribute as a string, as `attr['Name']` used in
`pre_mid_prefix + attr0['Name']` does. -/
def nameOf (d : AttrDict) : Option String :=
  match dictGet d "Name" with
  | some (AttrValue.str s) => some s
  | _ => none

/-- `last_end` (lines 302-309): `0` with no predecessor. -/
def gapLastEnd : Option GffLine → Int
  | none => 0
  | some lf => lf.columns.end_

/-- `intergenic0` (lines 302-310): the record anchoring the first half of
the gap; `current` itself when there is no predecessor. -/
def gapAnchor0 (gff_line : GffLine) : Option GffLine → GffLine
  | none => gff_line
  | some lf => lf

/-- `gap_span` (line 314). -/
def gapSpan (gff_line : GffLine) (last_feature : Option GffLine) : Int :=
  (gff_line.columns.start - 1) - (gapLastEnd last_feature + 1)

/-- `gap_midpoint` (line 315); Python `//` is floor division. -/
def gapMidpoint (gff_line : GffLine) (last_feature : Option GffLine) : Int :=
  gapLastEnd last_feature + 1 + Int.fdiv (gapSpan gff_line last_feature) 2

/-- `(pre_mid_offset_start, pre_mid_sign, pre_mid_prefix)` (lines 317-324). -/
def preMidTriple (gff_line : GffLine) (last_feature : Option GffLine) : Int × Int × String :=
  let i0 := gapAnchor0 gff_line last_feature
  if i0.columns.strand = "+" then
    (i0.columns.start, 1, if last_feature.isSome then "_down-" else "_up-")
  else
    (i0.columns.end_, -1, if last_feature.isSome then "_up-" else "_down-")

/-- `(post_mid_offset_start, post_mid_sign, post_mid_prefix)` (lines 326-333). -/
def postMidTriple (gff_line : GffLine) : Int × Int × String :=
  if gff_line.columns.strand = "+" then
    (gff_line.columns.start, -1, "_up-")
  else
    (gff_line.columns.end_, 1, "_down-")

/-- The pseudo-record appended at a first-half coordinate `i`
(lines 335-336 and 342-348): `intergenic0` with `locus_tag` and `offset`. -/
def preMidEntry (gff_line : GffLine) (last_feature : Option GffLine) (name0 : String)
    (i : Int) : GffLine :=
  let i0 := gapAnchor0 gff_line last_feature
  let tri := preMidTriple gff_line last_feature
  let attr0 := dictInsert i0.attributes "locus_tag" (AttrValue.str (tri.2.2 ++ name0))
  { i0 with attributes := dictInsert attr0 "offset" (AttrValue.int ((i - tri.1) * tri.2.1)) }

/-- The pseudo-record appended at a second-half coordinate `i`
(lines 337-338 and 350-356): `intergenic1 = current` with `locus_tag` and
`offset`. -/
def postMidEntry (gff_line : GffLine) (name1 : String) (i : Int) : GffLine :=
  let tri := postMidTriple gff_line
  let attr1 := dictInsert gff_line.attributes "locus_tag" (AttrValue.str (tri.2.2 ++ name1))
  { gff_line with attributes := dictInsert attr1 "offset" (AttrValue.int ((i - tri.1) * tri.2.1)) }

def _gapfill_table (gff_line : GffLine) (last_feature : Option GffLine) : Option Table :=
  match nameOf (gapAnchor0 gff_line last_feature).attributes, nameOf gff_line.attributes with
  | some name0, some name1 =>
    some (fillRange
      (fillRange []
        (intRange (gapLastEnd last_feature + 1) (gapMidpoint gff_line last_feature + 1))
        (preMidEntry gff_line last_feature name0))
      (intRange (gapMidpoint gff_line last_feature + 1) gff_line.columns.start)
      (postMidEntry gff_line name1))
  | _, _ => none

/-! ## Lookup Table Builder (`lookup_table`, lines 361-441) -/

/-- The qualification test of lines 395-397. -/
def qualifies (g : GffLine) : Bool :=
  !(_GFF_FEATURE_BLOCKLIST.contains g.columns.feature)
    && (dictGet g.attributes "Name").isSome
    && !(dictGet g.attributes "Parent").isSome

/-- `offset_start` (lines 404-406): the strand-relative anchor of a
within-feature coordinate. -/
def withinOffsetStart (gff_line : GffLine) : Int :=
  if gff_line.columns.strand = "+" then gff_line.columns.start else gff_line.columns.end_

/-- The within-feature entry appended at coordinate `i` (lines 408-415):
a copy of the record with an added integer `offset = abs(i - offset_start)`. -/
def withinEntry (gff_line : GffLine) (i : Int) : GffLine :=
  { gff_line with attributes := dictInsert gff_line.attributes "offset" (AttrValue.int |i - withinOffsetStart gff_line|) }

/-- One iteration of the builder's stream loop (lines 393-417). -/
def lookupTableStep (st : Table × Option GffLine) (gff_line : GffLine) :
    Option (Table × Option GffLine) :=
  if qualifies gff_line then
    match _gapfill_table gff_line st.2 with
    | none => none
    | some gap_table =>
      some (fillRange (mergeTable st.1 gap_table)
        (intRange gff_line.columns.start (gff_line.columns.end_ + 1))
        (withinEntry gff_line),
        some gff_line)
  else
    some (st.1, st.2)

/-- The builder's loop over the whole stream. -/
def lookupTableLoop (st : Table × Option GffLine) : List GffLine → Option (Table × Option GffLine)
  | [] => some st
  | g :: rest =>
    match lookupTableStep st g with
    | none => none
    | some st' => lookupTableLoop st' rest

/-- `(last_offset_start, last_sign, last_prefix)` (lines 419-426). -/
def lastTriple (last_feature : GffLine) : Int × Int × String :=
  if last_feature.columns.strand = "+" then
    (last_feature.columns.start, 1, "_down-")
  else
    (last_feature.columns.end_, -1, "_up-")

/-- The trailing pseudo-record appended at coordinate `i` (lines 428-437). -/
def trailingEntry (last_feature : GffLine) (name : String) (i : Int) : GffLine :=
  let tri := lastTriple last_feature
  let attr := dictInsert last_feature.attributes "locus_tag" (AttrValue.str (tri.2.2 ++ name))
  { last_feature with attributes := dictInsert attr "offset" (AttrValue.int ((i - tri.1) * tri.2.1)) }

/-- The trailing window past the final feature (lines 419-437): note the
loop runs over `range(last_feature.end, last_feature.end + 1000)`, i.e. it
starts AT `last_feature.end`, not one past it. -/
def trailingFill (t : Table) (last_feature : GffLine) : Option Table :=
  match nameOf last_feature.attributes with
  | none => none
  | some name =>
    some (fillRange t
      (intRange last_feature.columns.end_ (last_feature.columns.end_ + 1000))
      (trailingEntry last_feature name))

/-- `lookup_table` (lines 361-441).  `none` embeds the `AttributeError` when
no feature ever qualified (line 419 dereferences `None`), the `KeyError` on
a missing `Name`, the `ValueError` of `max` on an empty table, and the final
`assert` failing. -/
def lookup_table (gff_stream : List GffLine) : Option Table :=
  match lookupTableLoop ([], none) gff_stream with
  | none => none
  | some (_, none) => none
  | some (t, some last_feature) =>
    match trailingFill t last_feature with
    | none => none
    | some t' =>
      match pyMax? (tableKeys t') with
      | none => none
      | some m =>
        if (intRange 1 (m + 1)).all (fun i => !(tableGet t' i).isEmpty) then
          some t'
        else
          none

/-! ## Bulk conversion (`gff2dict`, lines 485-515, and `gff2csv`, lines 518-593)

The embedding renders rows without csv quoting, which the claims do not
touch; everything else (field order, sorted union of attribute keys, empty
fields for missing keys, the empty-stream error) follows the source. -/

/-- `str(value)` for an attribute value. -/
def attrValueStr : AttrValue → String
  | AttrValue.str s => s
  | AttrValue.int i => toString i

/-- `GffColumns._fields` / `columns._asdict()`. -/
def colsDict (g : GffLine) : AttrDict :=
  [("seqid", AttrValue.str g.columns.seqid),
   ("source", AttrValue.str g.columns.source),
   ("feature", AttrValue.str g.columns.feature),
   ("start", AttrValue.int g.columns.start),
   ("end", AttrValue.int g.columns.end_),
   ("score", AttrValue.str g.columns.score),
   ("strand", AttrValue.str g.columns.strand),
   ("phase", AttrValue.str g.columns.phase)]

/-- `gff2dict` on one line: the columns dict updated with the attributes. -/
def gff2dictLine (g : GffLine) : AttrDict :=
  g.attributes.foldl (fun d p => dictInsert d p.1 p.2) (colsDict g)

/-- The fixed column names of `_GFF_COLNAMES[:-1]`. -/
def gffColNames : List String :=
  ["seqid", "source", "feature", "start", "end", "score", "strand", "phase"]

/-- `set()` union of the attribute keys over the stream (insertion-ordered
here; the source sorts it before use, which makes the order canonical). -/
def attributeKeyUnion (ls : List GffLine) : List String :=
  ls.foldl (fun acc g =>
    acc ++ (g.attributes.map Prod.fst).filter (fun k => !acc.contains k)) []

/-- One `DictWriter` row: each field renders its value, or empty if absent. -/
def csvRow (fieldnames : List String) (g : GffLine) (sep : String) : String :=
  String.intercalate sep (fieldnames.map (fun f =>
    match dictGet (gff2dictLine g) f with
    | some v => attrValueStr v
    | none => ""))

/-- `gff2csv` (lines 518-593).  The `IOError` on an empty stream is the
`Except.error` branch. -/
def gff2csv (gff_stream : List GffLine) (write_metadata : Bool) (sep : String) :
    Except String (List String) :=
  let gff_lines := gff_stream
  let attribute_keys := (attributeKeyUnion gff_lines).mergeSort (fun a b => decide (a ≤ b))
  match gff_lines with
  | [] => Except.error "GFF stream is empty."
  | g0 :: _ =>
    let fieldnames := gffColNames ++ attribute_keys
    Except.ok ((if write_metadata then [toString g0.metadata] else []) ++
      String.intercalate sep fieldnames ::
      gff_lines.map (fun g => csvRow fieldnames g sep))

/-! ## Store-level model of `GffLine.copy` (lines 56-60)

`copy` returns `_make([self.metadata, self.columns, self.attributes.copy()])`:
the metadata reference and the columns value are shared, the attribute dict
is reallocated.  To state the non-aliasing guarantee the attribute dicts
live in an explicit store addressed by `Nat`. -/

structure AttrStore : Type where
  cells : List AttrDict

/-- Dereference an attribute-dict address. -/
def AttrStore.read (s : AttrStore) (a : Nat) : AttrDict := s.cells.getD a []

/-- Allocate a fresh dict, returning its address. -/
def AttrStore.alloc (s : AttrStore) (d : AttrDict) : AttrStore × Nat :=
  (⟨s.cells ++ [d]⟩, s.cells.length)

/-- Overwrite the dict at an address. -/
def AttrStore.write (s : AttrStore) (a : Nat) (d : AttrDict) : AttrStore :=
  ⟨s.cells.set a d⟩

/-- A `GffLine` whose attribute dict is held by reference. -/
structure GffLineObj : Type where
  metadata : Nat
  columns : GffColumns
  attributes : Nat

/-- `GffLine.copy`: same metadata reference, same columns, and a freshly
allocated copy of the attribute dict (`self.attributes.copy()`). -/
def GffLineObj.copy (s : AttrStore) (r : GffLineObj) : AttrStore × GffLineObj :=
  let alloc := s.alloc (s.read r.attributes)
  (alloc.1, ⟨r.metadata, r.columns, alloc.2⟩)

/-- Any in-place mutation of the dict at address `a` (adding, changing or
removing keys is the arbitrary function `f`). -/
def mutateAttrs (s : AttrStore) (a : Nat) (f : AttrDict → AttrDict) : AttrStore :=
  s.write a (f (s.read a))

/-- The chunks of the `'='`-split of an encoded attribute text, after the
leading key. -/
def eqChunks (v : List Char) : List (List Char × List Char) → List (List Char)
  | [] => [v]
  | p :: rest => (v ++ ';' :: p.1) :: eqChunks p.2 rest

/-! ## The §8 end-to-end scenario: two `+`-strand features
`Name=A` at `[1,10]` and `Name=B` at `[21,30]`. -/

def recA : GffLine := ⟨0, ⟨"chr", "src", "gene", 1, 10, ".", "+", "."⟩, [("Name", AttrValue.str "A")]⟩

def recB : GffLine := ⟨0, ⟨"chr", "src", "gene", 21, 30, ".", "+", "."⟩, [("Name", AttrValue.str "B")]⟩

/-- Table after processing `recA` (gap `(0,1)` is empty). -/
def tA : Table := fillRange [] (intRange 1 11) (withinEntry recA)

/-- The gap table between `recA` and `recB`: midpoint is 15. -/
def gapAB : Table :=
  fillRange (fillRange [] (intRange 11 16) (preMidEntry recB (some recA) "A"))
    (intRange 16 21) (postMidEntry recB "B")

/-- Table after processing `recB`. -/
def tB : Table := fillRange (mergeTable tA gapAB) (intRange 21 31) (withinEntry recB)

/-- The final table: the trailing window covers keys 30..1029. -/
def scenT : Table := fillRange tB (intRange 30 1030) (trailingEntry recB "B")

/-- A first qualifying feature starting at coordinate 50 (for the C6
witness). -/
def rec50 : GffLine := ⟨0, ⟨"chr", "src", "gene", 50, 60, ".", "+", "."⟩, [("Name", AttrValue.str "C")]⟩

/-- Its no-predecessor gap table: the midpoint of the gap `(0, 50)` is 25. -/
def gap50 : Table :=
  fillRange (fillRange [] (intRange 1 26) (preMidEntry rec50 none "C"))
    (intRange 26 50) (postMidEntry rec50 "C")

/-- A one-cell store for the C10 witness. -/
def scen_store : AttrStore := ⟨[[("Name", AttrValue.str "A")]]⟩

/-- A record object whose attribute dict lives at address 0. -/
def scen_obj : GffLineObj := ⟨0, recA.columns, 0⟩

/-! ## General lemmas about the dict and table operations -/

theorem dictGet_dictInsert {α β : Type} [DecidableEq α] (d : List (α × β)) (k k' : α) (v : β) :
    dictGet (dictInsert d k v) k' = if k' = k then some v else dictGet d k' := by
  induction d with
  | nil =>
    by_cases h : k' = k
    · simp [dictInsert, dictGet, h]
    · simp [dictInsert, dictGet, h, Ne.symm h]
  | cons p rest ih =>
    by_cases hp : p.1 = k
    · by_cases h : k' = k
      · simp [dictInsert, dictGet, hp, h]
      · have hpk : ¬(p.1 = k') := fun hh => h (hh.symm.trans hp)
        simp [dictInsert, dictGet, hp, h, hpk, Ne.symm h]
    · by_cases hq : p.1 = k'
      · have h : ¬(k' = k) := fun hh => hp (hq.trans hh)
        simp [dictInsert, dictGet, hp, hq, h]
      · simp [dictInsert, dictGet, hp, hq, ih]

theorem tableKeys_cons (p : Int × List GffLine) (rest : Table) :
    tableKeys (p :: rest) = p.1 :: tableKeys rest := rfl

theorem tableFind?_tableAppend (t : Table) (i j : Int) (r : GffLine) :
    tableFind? (tableAppend t i r) j =
      if j = i then some (tableGet t i ++ [r]) else tableFind? t j := by
  induction t with
  | nil =>
    by_cases h : j = i
    · simp [tableAppend, tableFind?, tableGet, h]
    · simp [tableAppend, tableFind?, tableGet, h, Ne.symm h]
  | cons p rest ih =>
    by_cases hp : p.1 = i
    · by_cases h : j = i
      · subst h
        simp [tableAppend, tableFind?, tableGet, hp]
      · have hpj : ¬(p.1 = j) := fun hh => h (hh.symm.trans hp)
        simp [tableAppend, tableFind?, hp, hpj, h, Ne.symm h]
    · by_cases hq : p.1 = j
      · have h : ¬(j = i) := fun hh => hp (hq.trans hh)
        simp [tableAppend, tableFind?, hp, hq, h]
      · by_cases h : j = i
        · subst h
          simp only [tableAppend, if_neg hp]
          simp only [tableFind?, if_neg hq, ih, if_pos rfl]
          have hg : tableGet (p :: rest) j = tableGet rest j := by
            simp [tableGet, tableFind?, hq]
          rw [hg]
        · simp [tableAppend, tableFind?, hp, hq, ih, h]

theorem tableGet_tableAppend (t : Table) (i j : Int) (r : GffLine) :
    tableGet (tableAppend t i r) j =
      if j = i then tableGet t j ++ [r] else tableGet t j := by
  by_cases h : j = i
  · subst h
    simp [tableGet, tableFind?_tableAppend]
  · simp [tableGet, tableFind?_tableAppend, h]

theorem tableKeys_tableAppend (t : Table) (i : Int) (r : GffLine) :
    tableKeys (tableAppend t i r) =
      if i ∈ tableKeys t then tableKeys t else tableKeys t ++ [i] := by
  induction t with
  | nil => simp [tableAppend, tableKeys]
  | cons p rest ih =>
    by_cases hp : p.1 = i
    · have h1 : tableAppend (p :: rest) i r = (p.1, p.2 ++ [r]) :: rest := by
        simp [tableAppend, hp]
      have h2 : i ∈ tableKeys (p :: rest) := by
        rw [tableKeys_cons]
        exact List.mem_cons.mpr (Or.inl hp.symm)
      rw [h1, if_pos h2, tableKeys_cons, tableKeys_cons]
    · have h1 : tableAppend (p :: rest) i r = p :: tableAppend rest i r := by
        simp [tableAppend, hp]
      have hne : i ≠ p.1 := fun hh => hp hh.symm
      rw [h1, tableKeys_cons, tableKeys_cons, ih]
      by_cases hm : i ∈ tableKeys rest
      · rw [if_pos hm, if_pos (List.mem_cons.mpr (Or.inr hm))]
      · rw [if_neg hm,
          if_neg (fun hh => (List.mem_cons.mp hh).elim hne hm)]
        simp [tableKeys]

theorem tableFind?_tableSet (t : Table) (i j : Int) (v : List GffLine) :
    tableFind? (tableSet t i v) j = if j = i then some v else tableFind? t j := by
  induction t with
  | nil =>
    by_cases h : j = i
    · simp [tableSet, tableFind?, h]
    · simp [tableSet, tableFind?, h, Ne.symm h]
  | cons p rest ih =>
    by_cases hp : p.1 = i
    · by_cases h : j = i
      · subst h
        simp [tableSet, tableFind?, hp]
      · have hij : ¬(i = j) := fun hh => h hh.symm
        simp [tableSet, tableFind?, hp, h, hij]
    · by_cases hq : p.1 = j
      · have h : ¬(j = i) := fun hh => hp (hq.trans hh)
        simp [tableSet, tableFind?, hp, hq, h]
      · simp [tableSet, tableFind?, hp, hq, ih]

theorem tableGet_tableSet (t : Table) (i j : Int) (v : List GffLine) :
    tableGet (tableSet t i v) j = if j = i then v else tableGet t j := by
  by_cases h : j = i
  · simp [tableGet, tableFind?_tableSet, h]
  · simp [tableGet, tableFind?_tableSet, h]

theorem tableKeys_tableSet (t : Table) (i : Int) (v : List GffLine) :
    tableKeys (tableSet t i v) =
      if i ∈ tableKeys t then tableKeys t else tableKeys t ++ [i] := by
  induction t with
  | nil => simp [tableSet, tableKeys]
  | cons p rest ih =>
    by_cases hp : p.1 = i
    · have h1 : tableSet (p :: rest) i v = (i, v) :: rest := by
        simp [tableSet, hp]
      have h2 : i ∈ tableKeys (p :: rest) := by
        rw [tableKeys_cons]
        exact List.mem_cons.mpr (Or.inl hp.symm)
      rw [h1, if_pos h2, tableKeys_cons, tableKeys_cons, hp]
    · have h1 : tableSet (p :: rest) i v = p :: tableSet rest i v := by
        simp [tableSet, hp]
      have hne : i ≠ p.1 := fun hh => hp hh.symm
      rw [h1, tableKeys_cons, tableKeys_cons, ih]
      by_cases hm : i ∈ tableKeys rest
      · rw [if_pos hm, if_pos (List.mem_cons.mpr (Or.inr hm))]
      · rw [if_neg hm,
          if_neg (fun hh => (List.mem_cons.mp hh).elim hne hm)]
        simp [tableKeys]

theorem tableGet_mergeTable (u : Table) (hu : (tableKeys u).Nodup) (t : Table) (j : Int) :
    tableGet (mergeTable t u) j =
      if j ∈ tableKeys u then tableGet u j else tableGet t j := by
  induction u generalizing t with
  | nil => simp [mergeTable, tableKeys]
  | cons p u' ih =>
    rw [tableKeys_cons] at hu
    have hp1 : p.1 ∉ tableKeys u' := (List.nodup_cons.mp hu).1
    have hu' : (tableKeys u').Nodup := (List.nodup_cons.mp hu).2
    have hm : mergeTable t (p :: u') = mergeTable (tableSet t p.1 p.2) u' := rfl
    rw [hm, ih hu', tableKeys_cons]
    by_cases h1 : j ∈ tableKeys u'
    · have hne : ¬(p.1 = j) := fun hh => hp1 (hh ▸ h1)
      rw [if_pos h1, if_pos (List.mem_cons.mpr (Or.inr h1))]
      simp [tableGet, tableFind?, hne]
    · by_cases h2 : j = p.1
      · rw [if_neg h1, if_pos (List.mem_cons.mpr (Or.inl h2)), tableGet_tableSet,
          if_pos h2]
        simp [tableGet, tableFind?, h2.symm]
      · rw [if_neg h1, tableGet_tableSet, if_neg h2,
          if_neg (fun hh => (List.mem_cons.mp hh).elim h2 h1)]

theorem tableKeys_mergeTable (u : Table) (hu : (tableKeys u).Nodup) (t : Table)
    (hfresh : ∀ k ∈ tableKeys u, k ∉ tableKeys t) :
    tableKeys (mergeTable t u) = tableKeys t ++ tableKeys u := by
  induction u generalizing t with
  | nil => simp [mergeTable, tableKeys]
  | cons p u' ih =>
    rw [tableKeys_cons] at hu
    have hp1 : p.1 ∉ tableKeys u' := (List.nodup_cons.mp hu).1
    have hu' : (tableKeys u').Nodup := (List.nodup_cons.mp hu).2
    have hm : mergeTable t (p :: u') = mergeTable (tableSet t p.1 p.2) u' := rfl
    have hset : tableKeys (tableSet t p.1 p.2) = tableKeys t ++ [p.1] := by
      rw [tableKeys_tableSet,
        if_neg (hfresh p.1 (List.mem_cons.mpr (Or.inl rfl)))]
    rw [hm, ih hu' _ ?_, hset, tableKeys_cons]
    · simp
    · intro k hk
      rw [hset]
      intro hmem
      rcases List.mem_append.mp hmem with h | h
      · exact hfresh k (List.mem_cons.mpr (Or.inr hk)) h
      · rcases List.mem_singleton.mp h with rfl
        exact hp1 hk

theorem tableGet_fillRange (ks : List Int) (t : Table) (f : Int → GffLine) (j : Int) :
    tableGet (fillRange t ks f) j =
      tableGet t j ++ (ks.filter (fun k => decide (k = j))).map f := by
  induction ks generalizing t with
  | nil => simp [fillRange]
  | cons k ks' ih =>
    have h1 : fillRange t (k :: ks') f = fillRange (tableAppend t k (f k)) ks' f := rfl
    rw [h1, ih, tableGet_tableAppend]
    by_cases h : j = k
    · subst h
      simp
    · simp [h, Ne.symm h]

theorem tableKeys_fillRange (ks : List Int) (hks : ks.Nodup) (t : Table)
    (f : Int → GffLine) (hfresh : ∀ k ∈ ks, k ∉ tableKeys t) :
    tableKeys (fillRange t ks f) = tableKeys t ++ ks := by
  induction ks generalizing t with
  | nil => simp [fillRange]
  | cons k ks' ih =>
    have hk1 : k ∉ ks' := (List.nodup_cons.mp hks).1
    have hks' : ks'.Nodup := (List.nodup_cons.mp hks).2
    have h1 : fillRange t (k :: ks') f = fillRange (tableAppend t k (f k)) ks' f := rfl
    have happ : tableKeys (tableAppend t k (f k)) = tableKeys t ++ [k] := by
      rw [tableKeys_tableAppend,
        if_neg (hfresh k (List.mem_cons.mpr (Or.inl rfl)))]
    rw [h1, ih hks' _ ?_, happ]
    · simp
    · intro x hx
      rw [happ]
      intro hmem
      rcases List.mem_append.mp hmem with h | h
      · exact hfresh x (List.mem_cons.mpr (Or.inr hx)) h
      · rcases List.mem_singleton.mp h with rfl
        exact hk1 hx

theorem filter_eq_of_nodup {l : List Int} (hl : l.Nodup) (j : Int) :
    l.filter (fun k => decide (k = j)) = if j ∈ l then [j] else [] := by
  induction l with
  | nil => simp
  | cons x xs ih =>
    have hx1 : x ∉ xs := (List.nodup_cons.mp hl).1
    have hxs : xs.Nodup := (List.nodup_cons.mp hl).2
    by_cases h : x = j
    · subst h
      have : xs.filter (fun k => decide (k = x)) = [] := by
        rw [ih hxs, if_neg hx1]
      simp [List.filter_cons, this]
    · have hjx : ¬(j = x) := fun hh => h hh.symm
      simp [List.filter_cons, h, ih hxs, List.mem_cons, hjx]

theorem mem_intRange {a b j : Int} : j ∈ intRange a b ↔ a ≤ j ∧ j < b := by
  simp only [intRange, List.mem_map, List.mem_range]
  constructor
  · rintro ⟨k, hk, rfl⟩
    constructor
    · omega
    · omega
  · intro h
    refine ⟨(j - a).toNat, by omega, by omega⟩

theorem intRange_nodup (a b : Int) : (intRange a b).Nodup := by
  refine List.Nodup.map ?_ (List.nodup_range _)
  intro x y h
  simpa using h

theorem intRange_append {a b c : Int} (h1 : a ≤ b) (h2 : b ≤ c) :
    intRange a b ++ intRange b c = intRange a c := by
  have hn : (c - a).toNat = (b - a).toNat + (c - b).toNat := by omega
  simp only [intRange, hn, List.range_add, List.map_append, List.map_map]
  congr 1
  apply List.map_congr_left
  intro k _
  simp only [Function.comp_apply]
  push_cast
  omega

theorem intRange_cons {a b : Int} (h : a < b) :
    intRange a b = a :: intRange (a + 1) b := by
  have hn : (b - a).toNat = (b - (a + 1)).toNat + 1 := by omega
  simp only [intRange, hn, List.range_succ_eq_map, List.map_cons, List.map_map]
  congr 1
  · simp
  · apply List.map_congr_left
    intro k _
    simp only [Function.comp_apply]
    push_cast
    omega

theorem le_foldl_max (l : List Int) (acc : Int) : acc ≤ l.foldl max acc := by
  induction l generalizing acc with
  | nil => simp
  | cons x xs ih =>
    calc acc ≤ max acc x := le_max_left _ _
    _ ≤ xs.foldl max (max acc x) := ih _

theorem mem_le_foldl_max {l : List Int} {x : Int} (h : x ∈ l) (acc : Int) :
    x ≤ l.foldl max acc := by
  induction l generalizing acc with
  | nil => cases h
  | cons y ys ih =>
    rcases List.mem_cons.mp h with rfl | h'
    · calc x ≤ max acc x := le_max_right _ _
      _ ≤ ys.foldl max (max acc x) := le_foldl_max _ _
    · exact ih h' _

theorem foldl_max_le {l : List Int} {M : Int} (hl : ∀ x ∈ l, x ≤ M) {acc : Int}
    (ha : acc ≤ M) : l.foldl max acc ≤ M := by
  induction l generalizing acc with
  | nil => simpa
  | cons x xs ih =>
    have : max acc x ≤ M := max_le ha (hl x (List.mem_cons.mpr (Or.inl rfl)))
    exact ih (fun y hy => hl y (List.mem_cons.mpr (Or.inr hy))) this

theorem pyMax?_eq_some {l : List Int} {M : Int} (hM : M ∈ l) (hle : ∀ x ∈ l, x ≤ M) :
    pyMax? l = some M := by
  cases l with
  | nil => cases hM
  | cons x xs =>
    have h1 : xs.foldl max x ≤ M :=
      foldl_max_le (fun y hy => hle y (List.mem_cons.mpr (Or.inr hy)))
        (hle x (List.mem_cons.mpr (Or.inl rfl)))
    have h2 : M ≤ xs.foldl max x := by
      rcases List.mem_cons.mp hM with rfl | h'
      · exact le_foldl_max _ _
      · exact mem_le_foldl_max h' _
    simp [pyMax?, le_antisymm h1 h2]

/-- The workhorse: reading a coordinate after a `for i in range(a, b)` fill
loop. -/
theorem tableGet_fillRange_intRange (t : Table) (a b : Int) (f : Int → GffLine) (j : Int) :
    tableGet (fillRange t (intRange a b) f) j =
      tableGet t j ++ (if a ≤ j ∧ j < b then [f j] else []) := by
  rw [tableGet_fillRange, filter_eq_of_nodup (intRange_nodup a b)]
  by_cases h : a ≤ j ∧ j < b
  · rw [if_pos (mem_intRange.mpr h), if_pos h]
    simp
  · rw [if_neg (fun hm => h (mem_intRange.mp hm)), if_neg h]
    simp

/-- Characterization of the Gap-Fill Engine's output at each coordinate. -/
theorem tableGet_gapfill {g : GffLine} {last : Option GffLine} {t : Table}
    (h : _gapfill_table g last = some t) :
    ∃ name0 name1,
      nameOf (gapAnchor0 g last).attributes = some name0 ∧
      nameOf g.attributes = some name1 ∧
      ∀ j : Int, tableGet t j =
        (if gapLastEnd last + 1 ≤ j ∧ j < gapMidpoint g last + 1
         then [preMidEntry g last name0 j] else []) ++
        (if gapMidpoint g last + 1 ≤ j ∧ j < g.columns.start
         then [postMidEntry g name1 j] else []) := by
  rcases hn0 : nameOf (gapAnchor0 g last).attributes with _ | name0
  · rw [_gapfill_table, hn0] at h
    cases h
  rcases hn1 : nameOf g.attributes with _ | name1
  · rw [_gapfill_table, hn0, hn1] at h
    cases h
  rw [_gapfill_table, hn0, hn1] at h
  refine ⟨name0, name1, rfl, rfl, fun j => ?_⟩
  cases h
  rw [tableGet_fillRange_intRange, tableGet_fillRange_intRange]
  simp [tableGet, tableFind?]

/-- Characterization of one qualifying step of the Builder at a
within-feature coordinate. -/
theorem tableGet_step_within {t : Table} {last : Option GffLine} {g : GffLine}
    {gap_table : Table} {t' : Table} {l' : Option GffLine}
    (hq : qualifies g = true)
    (hgap : _gapfill_table g last = some gap_table)
    (h : lookupTableStep (t, last) g = some (t', l')) :
    l' = some g ∧
      ∀ j, g.columns.start ≤ j → j ≤ g.columns.end_ →
        tableGet t' j = tableGet (mergeTable t gap_table) j ++ [withinEntry g j] := by
  rw [lookupTableStep, if_pos hq] at h
  simp only at h
  rw [hgap] at h
  simp only [Option.some.injEq, Prod.mk.injEq] at h
  obtain ⟨ht, hl⟩ := h
  refine ⟨hl.symm, ?_⟩
  intro j h1 h2
  rw [← ht, tableGet_fillRange_intRange, if_pos ⟨h1, by omega⟩]

/-! ## Lemmas for the attribute codec -/

theorem intercalate_singleton (s a : List Char) : List.intercalate s [a] = a := by
  simp [List.intercalate]

theorem intercalate_cons2 (s a b : List Char) (t : List (List Char)) :
    List.intercalate s (a :: b :: t) = a ++ s ++ List.intercalate s (b :: t) := by
  simp [List.intercalate, List.intersperse]

theorem splitOn_single_of_not_mem {l : List Char} {c : Char} (h : c ∉ l) :
    l.splitOn c = [l] := by
  apply List.splitOnP_eq_single
  intro x hx hbeq
  exact h (beq_iff_eq.mp hbeq ▸ hx)


theorem eqChunks_ne_nil (v : List Char) (rest : List (List Char × List Char)) :
    eqChunks v rest ≠ [] := by
  cases rest <;> simp [eqChunks]

theorem encode_cons_eq_intercalate (k v : List Char) (rest : List (List Char × List Char)) :
    encodeAttributes ((k, v) :: rest) = List.intercalate ['='] (k :: eqChunks v rest) := by
  induction rest generalizing k v with
  | nil =>
    rw [eqChunks, intercalate_cons2, intercalate_singleton]
    simp [encodeAttributes, intercalate_singleton]
  | cons p rest' ih =>
    have h1 : encodeAttributes ((k, v) :: p :: rest') =
        (k ++ '=' :: v) ++ [';'] ++ encodeAttributes (p :: rest') := by
      simp only [encodeAttributes, List.map_cons]
      rw [intercalate_cons2]
    rcases hc : eqChunks p.2 rest' with _ | ⟨c, cs⟩
    · exact absurd hc (eqChunks_ne_nil _ _)
    · rw [h1, ih p.1 p.2, eqChunks, intercalate_cons2, hc, intercalate_cons2,
        intercalate_cons2]
      simp

theorem eqChunks_no_eq {v : List Char} {rest : List (List Char × List Char)}
    (hv : '=' ∉ v) (hrest : ∀ p ∈ rest, '=' ∉ p.1 ∧ '=' ∉ p.2) :
    ∀ l ∈ eqChunks v rest, '=' ∉ l := by
  induction rest generalizing v with
  | nil =>
    intro l hl
    rw [eqChunks] at hl
    rcases List.mem_singleton.mp hl with rfl
    exact hv
  | cons p rest' ih =>
    intro l hl
    rw [eqChunks] at hl
    rcases List.mem_cons.mp hl with rfl | hl'
    · intro hmem
      rcases List.mem_append.mp hmem with h | h
      · exact hv h
      · rcases List.mem_cons.mp h with h | h
        · cases h
        · exact (hrest p (List.mem_cons.mpr (Or.inl rfl))).1 h
    · exact ih (hrest p (List.mem_cons.mpr (Or.inl rfl))).2
        (fun q hq => hrest q (List.mem_cons.mpr (Or.inr hq))) l hl'

theorem splitOn_encode {k v : List Char} {rest : List (List Char × List Char)}
    (hk : '=' ∉ k) (hv : '=' ∉ v)
    (hrest : ∀ p ∈ rest, '=' ∉ p.1 ∧ '=' ∉ p.2) :
    (encodeAttributes ((k, v) :: rest)).splitOn '=' = k :: eqChunks v rest := by
  rw [encode_cons_eq_intercalate]
  have hx : ∀ l ∈ k :: eqChunks v rest, '=' ∉ l := by
    intro l hl
    rcases List.mem_cons.mp hl with rfl | hl'
    · exact hk
    · exact eqChunks_no_eq hv hrest l hl'
  exact List.splitOn_intercalate _ '=' hx (by simp)

theorem splitOn_semi_pair {v k : List Char} (hv : ';' ∉ v) (hk : ';' ∉ k) :
    (v ++ ';' :: k).splitOn ';' = [v, k] := by
  have h1 : v ++ ';' :: k = List.intercalate [';'] [v, k] := by
    rw [intercalate_cons2, intercalate_singleton]
    simp
  rw [h1]
  refine List.splitOn_intercalate _ ';' ?_ (by simp)
  intro l hl
  rcases List.mem_cons.mp hl with rfl | hl'
  · exact hv
  · rcases List.mem_singleton.mp hl' with rfl
    exact hk

theorem zip_of_eqChunks {k v : List Char} {rest : List (List Char × List Char)}
    (hk : ';' ∉ k) (hv : ';' ∉ v)
    (hrest : ∀ p ∈ rest, ';' ∉ p.1 ∧ ';' ∉ p.2) :
    (((k :: eqChunks v rest).map (fun item => item.splitOn ';')).map
        (fun item => item.getLastD [])).zip
      ((((k :: eqChunks v rest).map (fun item => item.splitOn ';')).drop 1).map
        (fun item => item.headD [])) = (k, v) :: rest := by
  induction rest generalizing k v with
  | nil =>
    rw [eqChunks]
    simp only [List.map_cons, List.map_nil, List.drop_succ_cons, List.drop_nil]
    rw [splitOn_single_of_not_mem hk, splitOn_single_of_not_mem hv]
    simp
  | cons p rest' ih =>
    have hp1 : ';' ∉ p.1 := (hrest p (List.mem_cons.mpr (Or.inl rfl))).1
    have hp2 : ';' ∉ p.2 := (hrest p (List.mem_cons.mpr (Or.inl rfl))).2
    have hrest' : ∀ q ∈ rest', ';' ∉ q.1 ∧ ';' ∉ q.2 :=
      fun q hq => hrest q (List.mem_cons.mpr (Or.inr hq))
    have hih := ih (k := p.1) (v := p.2) hp1 hp2 hrest'
    rw [eqChunks]
    simp only [List.map_cons, List.drop_succ_cons, List.drop] at hih ⊢
    rw [splitOn_single_of_not_mem hk, splitOn_semi_pair hv hp1]
    rw [splitOn_single_of_not_mem hp1] at hih
    simp only [List.getLastD_cons, List.getLastD_nil, List.headD_cons] at hih ⊢
    rw [List.zip_cons_cons, hih]

theorem dictInsert_fresh {α β : Type} [DecidableEq α] (d : List (α × β)) (k : α) (v : β)
    (h : ∀ p ∈ d, p.1 ≠ k) : dictInsert d k v = d ++ [(k, v)] := by
  induction d with
  | nil => rfl
  | cons p rest ih =>
    rw [dictInsert, if_neg (h p (List.mem_cons.mpr (Or.inl rfl))),
      ih (fun q hq => h q (List.mem_cons.mpr (Or.inr hq)))]
    simp

theorem foldl_dictInsert_fresh {α β : Type} [DecidableEq α] (ps : List (α × β)) :
    ∀ acc : List (α × β), (ps.map Prod.fst).Nodup →
      (∀ p ∈ ps, ∀ q ∈ acc, q.1 ≠ p.1) →
      ps.foldl (fun d p => dictInsert d p.1 p.2) acc = acc ++ ps := by
  induction ps with
  | nil => intro acc _ _; simp
  | cons p ps' ih =>
    intro acc hnodup hfresh
    have hp : p.1 ∉ ps'.map Prod.fst := by
      rw [List.map_cons] at hnodup
      exact (List.nodup_cons.mp hnodup).1
    have hnodup' : (ps'.map Prod.fst).Nodup := by
      rw [List.map_cons] at hnodup
      exact (List.nodup_cons.mp hnodup).2
    have h1 : List.foldl (fun d p => dictInsert d p.1 p.2) acc (p :: ps') =
        List.foldl (fun d p => dictInsert d p.1 p.2) (dictInsert acc p.1 p.2) ps' := rfl
    rw [h1, dictInsert_fresh acc p.1 p.2
      (fun q hq => hfresh p (List.mem_cons.mpr (Or.inl rfl)) q hq)]
    rw [ih (acc ++ [(p.1, p.2)]) hnodup' ?_]
    · simp
    · intro r hr q hq
      rcases List.mem_append.mp hq with h | h
      · exact hfresh r (List.mem_cons.mpr (Or.inr hr)) q h
      · rcases List.mem_singleton.mp h with rfl
        intro heq
        exact hp (heq ▸ List.mem_map_of_mem Prod.fst hr)

theorem dictOfPairs_eq_self {α β : Type} [DecidableEq α] (ps : List (α × β))
    (h : (ps.map Prod.fst).Nodup) : dictOfPairs ps = ps := by
  rw [dictOfPairs, foldl_dictInsert_fresh ps [] h (fun p _ q hq => absurd hq (by simp))]
  simp

/-- **C3 (amended)**: for column-9 attribute text containing no `=` at
all, `_get_gff_attributes` returns the empty mapping (it does not fail,
and it does not produce a single default-keyed entry). -/
theorem C3_no_equals_empty (x : List Char) (h : '=' ∉ x) :
    _get_gff_attributes x = [] := by
  simp only [_get_gff_attributes]
  rw [splitOn_single_of_not_mem h]
  simp [dictOfPairs]

/-- **C2**: attribute codec round-trip.  For every mapping whose keys and
values contain no `;` and no `=`, decoding the `;`-joined `key=value`
rendering of `GffLine.__str__` yields the original mapping. -/
theorem C2_attribute_roundtrip (m : List (List Char × List Char))
    (hnodup : (m.map Prod.fst).Nodup)
    (hchars : ∀ p ∈ m, (';' ∉ p.1 ∧ ';' ∉ p.2) ∧ ('=' ∉ p.1 ∧ '=' ∉ p.2)) :
    _get_gff_attributes (encodeAttributes m) = m := by
  cases m with
  | nil => rfl
  | cons p rest =>
    obtain ⟨k, v⟩ := p
    have hk := hchars (k, v) (List.mem_cons.mpr (Or.inl rfl))
    have hrest : ∀ q ∈ rest, (';' ∉ q.1 ∧ ';' ∉ q.2) ∧ ('=' ∉ q.1 ∧ '=' ∉ q.2) :=
      fun q hq => hchars q (List.mem_cons.mpr (Or.inr hq))
    simp only [_get_gff_attributes]
    rw [splitOn_encode hk.2.1 hk.2.2 (fun q hq => (hrest q hq).2)]
    rw [zip_of_eqChunks hk.1.1 hk.1.2 (fun q hq => (hrest q hq).1)]
    exact dictOfPairs_eq_self _ hnodup


theorem scen_gapA : _gapfill_table recA none = some [] := rfl

theorem scen_step1 : lookupTableStep ([], none) recA = some (tA, some recA) := rfl

theorem scen_gapAB : _gapfill_table recB (some recA) = some gapAB := rfl

theorem scen_step2 : lookupTableStep (tA, some recA) recB = some (tB, some recB) := rfl

theorem scen_loop : lookupTableLoop ([], none) [recA, recB] = some (tB, some recB) := rfl

theorem scen_trailing : trailingFill tB recB = some scenT := rfl

theorem fillRange_cons (t : Table) (k : Int) (ks : List Int) (f : Int → GffLine) :
    fillRange t (k :: ks) f = fillRange (tableAppend t k (f k)) ks f := rfl

theorem scen_keys_tA : tableKeys tA = intRange 1 11 := by
  rw [tA, tableKeys_fillRange _ (intRange_nodup _ _) _ _ (by intro k _; simp [tableKeys])]
  rfl

theorem scen_keys_gapAB : tableKeys gapAB = intRange 11 21 := by
  rw [gapAB, tableKeys_fillRange _ (intRange_nodup _ _) _ _ ?_,
    tableKeys_fillRange _ (intRange_nodup _ _) _ _ (by intro k _; simp [tableKeys])]
  · have h : tableKeys ([] : Table) = [] := rfl
    rw [h, List.nil_append, intRange_append (by norm_num) (by norm_num)]
  · intro k hk
    rw [tableKeys_fillRange _ (intRange_nodup _ _) _ _ (by intro k _; simp [tableKeys])]
    have h : tableKeys ([] : Table) = [] := rfl
    rw [h, List.nil_append]
    intro hmem
    have h1 := mem_intRange.mp hk
    have h2 := mem_intRange.mp hmem
    omega

theorem scen_keys_merge : tableKeys (mergeTable tA gapAB) = intRange 1 21 := by
  rw [tableKeys_mergeTable gapAB (by rw [scen_keys_gapAB]; exact intRange_nodup _ _) tA ?_,
    scen_keys_tA, scen_keys_gapAB, intRange_append (by norm_num) (by norm_num)]
  intro k hk
  rw [scen_keys_gapAB] at hk
  rw [scen_keys_tA]
  intro hmem
  have h1 := mem_intRange.mp hk
  have h2 := mem_intRange.mp hmem
  omega

theorem scen_keys_tB : tableKeys tB = intRange 1 31 := by
  rw [tB, tableKeys_fillRange _ (intRange_nodup _ _) _ _ ?_, scen_keys_merge,
    intRange_append (by norm_num) (by norm_num)]
  intro k hk
  rw [scen_keys_merge]
  intro hmem
  have h1 := mem_intRange.mp hk
  have h2 := mem_intRange.mp hmem
  omega

theorem scen_keys : tableKeys scenT = intRange 1 1030 := by
  have hsplit : intRange (30 : Int) 1030 = 30 :: intRange 31 1030 :=
    intRange_cons (by norm_num)
  have hfill : scenT =
      fillRange (tableAppend tB 30 (trailingEntry recB "B" 30)) (intRange 31 1030)
        (trailingEntry recB "B") := by
    rw [scenT, hsplit, fillRange_cons]
  have hkeys30 : tableKeys (tableAppend tB 30 (trailingEntry recB "B" 30)) = tableKeys tB := by
    rw [tableKeys_tableAppend,
      if_pos (by rw [scen_keys_tB]; exact mem_intRange.mpr (by norm_num))]
  rw [hfill, tableKeys_fillRange _ (intRange_nodup _ _) _ _ ?_, hkeys30, scen_keys_tB,
    intRange_append (by norm_num) (by norm_num)]
  intro k hk
  rw [hkeys30, scen_keys_tB]
  intro hmem
  have h1 := mem_intRange.mp hk
  have h2 := mem_intRange.mp hmem
  omega

theorem scen_get_tA (j : Int) :
    tableGet tA j = if 1 ≤ j ∧ j < 11 then [withinEntry recA j] else [] := by
  rw [tA, tableGet_fillRange_intRange]
  rfl

theorem scen_get_gapAB (j : Int) :
    tableGet gapAB j =
      (if 11 ≤ j ∧ j < 16 then [preMidEntry recB (some recA) "A" j] else []) ++
      (if 16 ≤ j ∧ j < 21 then [postMidEntry recB "B" j] else []) := by
  rw [gapAB, tableGet_fillRange_intRange, tableGet_fillRange_intRange]
  rfl

theorem scen_get (j : Int) :
    tableGet scenT j =
      ((if 11 ≤ j ∧ j < 21 then
          (if 11 ≤ j ∧ j < 16 then [preMidEntry recB (some recA) "A" j] else []) ++
          (if 16 ≤ j ∧ j < 21 then [postMidEntry recB "B" j] else [])
        else if 1 ≤ j ∧ j < 11 then [withinEntry recA j] else []) ++
        (if 21 ≤ j ∧ j < 31 then [withinEntry recB j] else [])) ++
      (if 30 ≤ j ∧ j < 1030 then [trailingEntry recB "B" j] else []) := by
  rw [scenT, tableGet_fillRange_intRange, tB, tableGet_fillRange_intRange,
    tableGet_mergeTable gapAB (by rw [scen_keys_gapAB]; exact intRange_nodup _ _) tA j,
    scen_keys_gapAB, scen_get_tA, scen_get_gapAB]
  by_cases h : 11 ≤ j ∧ j < 21
  · rw [if_pos (mem_intRange.mpr h), if_pos h]
  · rw [if_neg (fun hm => h (mem_intRange.mp hm)), if_neg h]

theorem scen_cover (j : Int) (h1 : 1 ≤ j) (h2 : j ≤ 1029) : tableGet scenT j ≠ [] := by
  have hg := scen_get j
  refine List.ne_nil_of_length_pos ?_
  rw [hg]
  simp only [List.length_append, apply_ite List.length, List.length_singleton,
    List.length_nil]
  split_ifs <;> omega

theorem scen_max : pyMax? (tableKeys scenT) = some 1029 := by
  rw [scen_keys]
  refine pyMax?_eq_some (mem_intRange.mpr (by norm_num)) ?_
  intro x hx
  have := mem_intRange.mp hx
  omega

theorem scen_check :
    (intRange 1 (1029 + 1)).all (fun i => !(tableGet scenT i).isEmpty) = true := by
  rw [List.all_eq_true]
  intro i hi
  have hb := mem_intRange.mp hi
  have hne := scen_cover i hb.1 (by omega)
  rcases hg : tableGet scenT i with _ | ⟨x, xs⟩
  · exact absurd hg hne
  · simp [List.isEmpty]

theorem scen_lookup : lookup_table [recA, recB] = some scenT := by
  unfold lookup_table
  rw [scen_loop]
  simp only [scen_trailing, scen_max, scen_check, if_true]

/-- Floor division by 2 agrees with Euclidean division (for `omega`). -/
theorem fdiv_two_eq_ediv (n : Int) : Int.fdiv n 2 = n / 2 :=
  Int.fdiv_eq_ediv n (by norm_num)

theorem gapMidpoint_eq (g : GffLine) (last : Option GffLine) :
    gapMidpoint g last =
      gapLastEnd last + 1 + ((g.columns.start - 1) - (gapLastEnd last + 1)) / 2 := by
  rw [gapMidpoint, fdiv_two_eq_ediv, gapSpan]

theorem ltag_withinA (i : Int) :
    dictGet (withinEntry recA i).attributes "locus_tag" = none := rfl

theorem ltag_withinB (i : Int) :
    dictGet (withinEntry recB i).attributes "locus_tag" = none := rfl

theorem ltag_pre (i : Int) :
    dictGet (preMidEntry recB (some recA) "A" i).attributes "locus_tag" =
      some (AttrValue.str "_down-A") := rfl

theorem ltag_post (i : Int) :
    dictGet (postMidEntry recB "B" i).attributes "locus_tag" =
      some (AttrValue.str "_up-B") := rfl

theorem ltag_trailing (i : Int) :
    dictGet (trailingEntry recB "B" i).attributes "locus_tag" =
      some (AttrValue.str "_down-B") := rfl

/-! ## Claim theorems -/

/-- **C4**: Gap-Fill Engine midpoint split.  For every current record and
previous record (with `last_end = 0` when the previous is absent), the
engine computes `gap_span = (this_start - 1) - (last_end + 1)` and
`gap_midpoint = last_end + 1 + gap_span // 2` (floor division), and emits
predecessor-anchored entries exactly at `last_end+1 .. gap_midpoint` and
successor-anchored entries exactly at `gap_midpoint+1 .. this_start-1`. -/
theorem C4_gap_midpoint_split (g : GffLine) (last : Option GffLine) (t : Table)
    (h : _gapfill_table g last = some t) :
    ∃ name0 name1,
      nameOf (gapAnchor0 g last).attributes = some name0 ∧
      nameOf g.attributes = some name1 ∧
      gapSpan g last = (g.columns.start - 1) - (gapLastEnd last + 1) ∧
      gapMidpoint g last = gapLastEnd last + 1 + Int.fdiv (gapSpan g last) 2 ∧
      (∀ i, gapLastEnd last + 1 ≤ i → i ≤ gapMidpoint g last →
        tableGet t i = [preMidEntry g last name0 i]) ∧
      (∀ i, gapMidpoint g last + 1 ≤ i → i ≤ g.columns.start - 1 →
        tableGet t i = [postMidEntry g name1 i]) ∧
      (∀ i, tableGet t i ≠ [] → gapLastEnd last + 1 ≤ i ∧ i ≤ g.columns.start - 1) := by
  obtain ⟨name0, name1, h0, h1, hget⟩ := tableGet_gapfill h
  have hmid := gapMidpoint_eq g last
  refine ⟨name0, name1, h0, h1, rfl, rfl, ?_, ?_, ?_⟩
  · intro i hi1 hi2
    rw [hget i, if_pos ⟨hi1, by omega⟩, if_neg (by omega)]
    simp
  · intro i hi1 hi2
    rw [hget i, if_neg (by omega), if_pos ⟨hi1, by omega⟩]
    simp
  · intro i hne
    rw [hget i] at hne
    by_cases hc1 : gapLastEnd last + 1 ≤ i ∧ i < gapMidpoint g last + 1
    · exact ⟨hc1.1, by omega⟩
    · rw [if_neg hc1, List.nil_append] at hne
      by_cases hc2 : gapMidpoint g last + 1 ≤ i ∧ i < g.columns.start
      · exact ⟨by omega, by omega⟩
      · rw [if_neg hc2] at hne
        exact absurd rfl hne

/-- Witness for C4 at the spec's concrete instance: `previous.end = 10`,
`current.start = 21`, so the midpoint is 15; position 12 anchors to the
predecessor and position 17 to the successor. -/
theorem C4_gap_midpoint_split_witness :
    gapMidpoint recB (some recA) = 15 ∧
    tableGet gapAB 12 = [preMidEntry recB (some recA) "A" 12] ∧
    tableGet gapAB 17 = [postMidEntry recB "B" 17] := by
  obtain ⟨n0, n1, h0, h1, _, _, hpre, hpost, _⟩ :=
    C4_gap_midpoint_split recB (some recA) gapAB scen_gapAB
  have hr0 : nameOf (gapAnchor0 recB (some recA)).attributes = some "A" := rfl
  rw [hr0] at h0
  have e0 : "A" = n0 := Option.some.inj h0
  have hr1 : nameOf recB.attributes = some "B" := rfl
  rw [hr1] at h1
  have e1 : "B" = n1 := Option.some.inj h1
  subst e0
  subst e1
  exact ⟨by decide, hpre 12 (by decide) (by decide), hpost 17 (by decide) (by decide)⟩

/-- **C5**: successor-anchored half rule.  For every gap position `i` in
`gap_midpoint+1 .. this_start-1` the emitted pseudo-record is derived from
`current` with `offset = (i - anchor) * sign`: on strand `+` the anchor is
`current.start`, the sign `-1`, and the `locus_tag` prefix `_up-`; on
strand `-` the anchor is `current.end`, the sign `+1`, and the prefix
`_down-`. -/
theorem C5_successor_half_rule (g : GffLine) (last : Option GffLine) (t : Table)
    (name1 : String)
    (h : _gapfill_table g last = some t)
    (hname : nameOf g.attributes = some name1)
    (i : Int) (h1 : gapMidpoint g last + 1 ≤ i) (h2 : i ≤ g.columns.start - 1) :
    (g.columns.strand = "+" →
      tableGet t i = [{ g with attributes := dictInsert (dictInsert g.attributes "locus_tag" (AttrValue.str ("_up-" ++ name1))) "offset" (AttrValue.int ((i - g.columns.start) * (-1))) }]) ∧
    (g.columns.strand = "-" →
      tableGet t i = [{ g with attributes := dictInsert (dictInsert g.attributes "locus_tag" (AttrValue.str ("_down-" ++ name1))) "offset" (AttrValue.int ((i - g.columns.end_) * 1)) }]) := by
  obtain ⟨n0, n1, h0, h1', hget⟩ := tableGet_gapfill h
  rw [hname] at h1'
  have e1 : name1 = n1 := Option.some.inj h1'
  subst e1
  have hg : tableGet t i = [postMidEntry g name1 i] := by
    rw [hget i, if_neg (by omega), if_pos ⟨h1, by omega⟩]
    simp
  constructor
  · intro hstrand
    rw [hg]
    simp [postMidEntry, postMidTriple, hstrand]
  · intro hstrand
    rw [hg]
    have hne : ¬(g.columns.strand = "+") := by rw [hstrand]; decide
    simp [postMidEntry, postMidTriple, hne]

/-- Witness for C5 at the spec's concrete instance: a `+`-strand `current`
with `start = 21` gives offset `(20 - 21) * (-1) = 1` at position 20. -/
theorem C5_successor_half_rule_witness :
    tableGet gapAB 20 = [{ recB with attributes := dictInsert (dictInsert recB.attributes "locus_tag" (AttrValue.str ("_up-" ++ "B"))) "offset" (AttrValue.int ((20 - 21) * (-1))) }] ∧
    ((20 - 21) * (-1) : Int) = 1 := by
  have h := C5_successor_half_rule recB (some recA) gapAB "B" scen_gapAB rfl 20
    (by decide) (by decide)
  exact ⟨h.1 rfl, by decide⟩

/-- **C6**: no-predecessor boundary.  With `previous` absent, `last_end`
is `0` and the predecessor-anchored half is anchored on `current` itself
with the tag polarity flipped (`_up-` on strand `+`, `_down-` on `-`);
hence a first qualifying feature produces gap entries for every coordinate
`1 .. start-1`, all derived from `current`. -/
theorem C6_no_predecessor_boundary (g : GffLine) (t : Table) (name : String)
    (h : _gapfill_table g none = some t)
    (hname : nameOf g.attributes = some name) :
    gapLastEnd none = 0 ∧
    gapAnchor0 g none = g ∧
    (g.columns.strand = "+" → (preMidTriple g none).2.2 = "_up-") ∧
    (g.columns.strand = "-" → (preMidTriple g none).2.2 = "_down-") ∧
    (∀ i, 1 ≤ i → i ≤ gapMidpoint g none → tableGet t i = [preMidEntry g none name i]) ∧
    (∀ i, gapMidpoint g none + 1 ≤ i → i ≤ g.columns.start - 1 →
      tableGet t i = [postMidEntry g name i]) ∧
    (∀ i, tableGet t i ≠ [] ↔ 1 ≤ i ∧ i ≤ g.columns.start - 1) := by
  obtain ⟨n0, n1, h0, h1', hget⟩ := tableGet_gapfill h
  have hanchor : gapAnchor0 g none = g := rfl
  rw [hanchor] at h0
  rw [hname] at h0 h1'
  have e0 : name = n0 := Option.some.inj h0
  have e1 : name = n1 := Option.some.inj h1'
  subst e0
  subst e1
  have hle : gapLastEnd none = 0 := rfl
  have hmid := gapMidpoint_eq g none
  rw [hle] at hmid
  have hspan : gapSpan g none = (g.columns.start - 1) - (gapLastEnd none + 1) := rfl
  rw [hle] at hspan
  refine ⟨rfl, rfl, ?_, ?_, ?_, ?_, ?_⟩
  · intro hstrand
    simp [preMidTriple, hanchor, hstrand]
  · intro hstrand
    have hne : ¬(g.columns.strand = "+") := by rw [hstrand]; decide
    simp [preMidTriple, hanchor, hne]
  · intro i hi1 hi2
    rw [hget i, hle, if_pos ⟨by omega, by omega⟩, if_neg (by omega)]
    simp
  · intro i hi1 hi2
    rw [hget i, hle, if_neg (by omega), if_pos ⟨hi1, by omega⟩]
    simp
  · intro i
    constructor
    · intro hne
      rw [hget i, hle] at hne
      by_cases hc1 : 0 + 1 ≤ i ∧ i < gapMidpoint g none + 1
      · exact ⟨by omega, by omega⟩
      · rw [if_neg hc1, List.nil_append] at hne
        by_cases hc2 : gapMidpoint g none + 1 ≤ i ∧ i < g.columns.start
        · exact ⟨by omega, by omega⟩
        · rw [if_neg hc2] at hne
          exact absurd rfl hne
    · intro hb
      rw [hget i, hle]
      by_cases hc : i ≤ gapMidpoint g none
      · rw [if_pos ⟨by omega, by omega⟩]
        simp
      · rw [if_neg (by omega), List.nil_append, if_pos ⟨by omega, by omega⟩]
        simp


theorem scen_gap50 : _gapfill_table rec50 none = some gap50 := rfl

/-- Witness for C6: the first qualifying feature with `start = 50` yields
gap entries at every coordinate `1..49` (checked at 1 and 49) and none at
50; the first-half tag polarity is flipped to `_up-` on strand `+`. -/
theorem C6_no_predecessor_boundary_witness :
    tableGet gap50 1 ≠ [] ∧ tableGet gap50 49 ≠ [] ∧ tableGet gap50 50 = [] ∧
    (preMidTriple rec50 none).2.2 = "_up-" := by
  obtain ⟨_, _, hplus, _, _, _, hiff⟩ :=
    C6_no_predecessor_boundary rec50 gap50 "C" scen_gap50 rfl
  have h50 : tableGet gap50 50 = [] := by
    by_contra hne
    have hb := (hiff 50).mp hne
    have : rec50.columns.start = 50 := rfl
    omega
  refine ⟨(hiff 1).mpr ⟨by decide, by decide⟩, (hiff 49).mpr ⟨by decide, by decide⟩,
    h50, hplus rfl⟩

/-- **C7**: within-feature entries.  For every qualifying record, one pass
of the Builder adds, at each coordinate `i` in `[start, end]`, exactly one
entry holding a copy of the record whose attributes gain an `offset` key
equal to `abs(i - anchor)`, where `anchor = start` on strand `+` and
`end` otherwise. -/
theorem C7_within_feature_entries (t : Table) (last : Option GffLine) (g : GffLine)
    (gap_table t' : Table) (l' : Option GffLine)
    (hq : qualifies g = true)
    (hgap : _gapfill_table g last = some gap_table)
    (h : lookupTableStep (t, last) g = some (t', l'))
    (i : Int) (h1 : g.columns.start ≤ i) (h2 : i ≤ g.columns.end_) :
    tableGet t' i = tableGet (mergeTable t gap_table) i ++
      [{ g with attributes := dictInsert g.attributes "offset" (AttrValue.int |i - (if g.columns.strand = "+" then g.columns.start else g.columns.end_)|) }] := by
  obtain ⟨_, hw⟩ := tableGet_step_within hq hgap h
  rw [hw i h1 h2]
  rfl

/-- Witness for C7: processing `Name=A` spanning `[1,10]` on strand `+`
from an empty table appends within-entries with offsets `0` at key 1 and
`9` at key 10. -/
theorem C7_within_feature_entries_witness :
    tableGet tA 1 = tableGet (mergeTable [] []) 1 ++
      [{ recA with attributes := dictInsert recA.attributes "offset" (AttrValue.int |1 - (if recA.columns.strand = "+" then recA.columns.start else recA.columns.end_)|) }] ∧
    tableGet tA 10 = tableGet (mergeTable [] []) 10 ++
      [{ recA with attributes := dictInsert recA.attributes "offset" (AttrValue.int |10 - (if recA.columns.strand = "+" then recA.columns.start else recA.columns.end_)|) }] ∧
    (|(1 : Int) - 1| = 0 ∧ |(10 : Int) - 1| = 9) := by
  refine ⟨C7_within_feature_entries [] none recA [] tA (some recA) rfl rfl scen_step1 1
      (by decide) (by decide),
    C7_within_feature_entries [] none recA [] tA (some recA) rfl rfl scen_step1 10
      (by decide) (by decide),
    by decide, by decide⟩

/-- **C8**: coverage post-condition as fatal check.  `lookup_table`
returns a table only if every integer coordinate from 1 to the maximum key
present maps to a non-empty list; otherwise the assertion fails and no
table is returned. -/
theorem C8_coverage_assertion (s : List GffLine) (t : Table) (m : Int)
    (h : lookup_table s = some t)
    (hm : pyMax? (tableKeys t) = some m)
    (i : Int) (h1 : 1 ≤ i) (h2 : i ≤ m) : tableGet t i ≠ [] := by
  rw [lookup_table] at h
  rcases hl : lookupTableLoop ([], none) s with _ | ⟨t0, _ | lf0⟩
  · simp only [hl] at h
    cases h
  · simp only [hl] at h
    cases h
  · simp only [hl] at h
    rcases ht : trailingFill t0 lf0 with _ | t1
    · simp only [ht] at h
      cases h
    · simp only [ht] at h
      rcases hmx : pyMax? (tableKeys t1) with _ | m1
      · simp only [hmx] at h
        cases h
      · simp only [hmx] at h
        by_cases hchk :
            (intRange 1 (m1 + 1)).all (fun i => !(tableGet t1 i).isEmpty) = true
        · rw [if_pos hchk] at h
          cases h
          rw [hmx] at hm
          have em : m1 = m := Option.some.inj hm
          subst em
          have := List.all_eq_true.mp hchk i (mem_intRange.mpr ⟨h1, by omega⟩)
          intro hnil
          rw [hnil] at this
          simp at this
        · rw [if_neg hchk] at h
          cases h

/-- Witness for C8: applied to the §8 scenario table, whose maximum key is
1029, at coordinate 700. -/
theorem C8_coverage_assertion_witness : tableGet scenT 700 ≠ [] :=
  C8_coverage_assertion [recA, recB] scenT 1029 scen_lookup scen_max 700
    (by decide) (by decide)

/-- Witness for C2 on a concrete two-entry mapping. -/
theorem C2_attribute_roundtrip_witness :
    _get_gff_attributes (encodeAttributes
      [(['I', 'D'], ['t', '0', '1']), (['a', 't', 't', 'r'], ['+'])]) =
      [(['I', 'D'], ['t', '0', '1']), (['a', 't', 't', 'r'], ['+'])] :=
  C2_attribute_roundtrip _ (by decide) (by decide)

/-- **C3 counterexample**: on `=`-free text the decoder returns the empty
mapping, not a single default-keyed entry holding the entire text. -/
theorem C3_counterexample :
    ('=' ∉ (['k', 'e', 'y'] : List Char)) ∧
    _get_gff_attributes ['k', 'e', 'y'] = [] ∧
    (_get_gff_attributes ['k', 'e', 'y']).length ≠ 1 := by decide

/-- Witness for the amended C3. -/
theorem C3_no_equals_empty_witness : _get_gff_attributes ['n', 'o'] = [] :=
  C3_no_equals_empty ['n', 'o'] (by decide)

/-- **C1 counterexample**: in the §8 scenario the trailing window occupies
keys `30 .. 1029`, not `31 .. 1030`: key 1030 maps to nothing, while key 30
(which is `last_feature.end` itself) holds both the within-`B` entry and a
trailing `_down-B` entry. -/
theorem C1_counterexample :
    lookup_table [recA, recB] = some scenT ∧
    tableGet scenT 1030 = [] ∧
    tableGet scenT 30 = [withinEntry recB 30, trailingEntry recB "B" 30] := by
  refine ⟨scen_lookup, ?_, ?_⟩
  · rw [scen_get 1030, if_neg (by decide), if_neg (by decide), if_neg (by decide),
      if_neg (by decide)]
    rfl
  · rw [scen_get 30, if_neg (by decide), if_neg (by decide), if_pos (by decide),
      if_pos (by decide)]
    rfl

/-- **C1 (amended)**: the trailing pseudo-records occupy exactly the 1000
coordinates `last_feature.end .. last_feature.end + 999` (here 30..1029),
and every integer key in `[1, N + 999]` (N = 30) maps to a non-empty
list. -/
theorem C1_trailing_window_amended (i : Int) :
    lookup_table [recA, recB] = some scenT ∧
    (1 ≤ i → i ≤ 30 + 999 → tableGet scenT i ≠ []) ∧
    ((∃ r ∈ tableGet scenT i,
        dictGet r.attributes "locus_tag" = some (AttrValue.str "_down-B")) ↔
      30 ≤ i ∧ i ≤ 30 + 999) := by
  refine ⟨scen_lookup, fun h1 h2 => scen_cover i h1 (by omega), ?_⟩
  constructor
  · rintro ⟨r, hr, hltag⟩
    rw [scen_get i] at hr
    rcases List.mem_append.mp hr with hr1 | hr2
    · rcases List.mem_append.mp hr1 with hr11 | hr12
      · by_cases hc : 11 ≤ i ∧ i < 21
        · rw [if_pos hc] at hr11
          rcases List.mem_append.mp hr11 with h | h
          · by_cases hc1 : 11 ≤ i ∧ i < 16
            · rw [if_pos hc1] at h
              rcases List.mem_singleton.mp h with rfl
              rw [ltag_pre] at hltag
              exact absurd hltag (by decide)
            · rw [if_neg hc1] at h
              cases h
          · by_cases hc2 : 16 ≤ i ∧ i < 21
            · rw [if_pos hc2] at h
              rcases List.mem_singleton.mp h with rfl
              rw [ltag_post] at hltag
              exact absurd hltag (by decide)
            · rw [if_neg hc2] at h
              cases h
        · rw [if_neg hc] at hr11
          by_cases hc2 : 1 ≤ i ∧ i < 11
          · rw [if_pos hc2] at hr11
            rcases List.mem_singleton.mp hr11 with rfl
            rw [ltag_withinA] at hltag
            cases hltag
          · rw [if_neg hc2] at hr11
            cases hr11
      · by_cases hc : 21 ≤ i ∧ i < 31
        · rw [if_pos hc] at hr12
          rcases List.mem_singleton.mp hr12 with rfl
          rw [ltag_withinB] at hltag
          cases hltag
        · rw [if_neg hc] at hr12
          cases hr12
    · by_cases hc : 30 ≤ i ∧ i < 1030
      · exact ⟨hc.1, by omega⟩
      · rw [if_neg hc] at hr2
        cases hr2
  · rintro ⟨hb1, hb2⟩
    refine ⟨trailingEntry recB "B" i, ?_, ltag_trailing i⟩
    rw [scen_get i]
    refine List.mem_append.mpr (Or.inr ?_)
    rw [if_pos ⟨hb1, by omega⟩]
    simp

/-- Witness for the amended C1 at keys 1029 (covered) and 30 (holds a
trailing `_down-B` entry). -/
theorem C1_trailing_window_amended_witness :
    tableGet scenT 1029 ≠ [] ∧
    (∃ r ∈ tableGet scenT 30,
      dictGet r.attributes "locus_tag" = some (AttrValue.str "_down-B")) := by
  obtain ⟨_, hcov, _⟩ := C1_trailing_window_amended 1029
  obtain ⟨_, _, hiff30⟩ := C1_trailing_window_amended 30
  exact ⟨hcov (by decide) (by decide), hiff30.mpr ⟨by decide, by decide⟩⟩

/-- **C9**: bulk conversion of an empty record stream raises the explicit
`IOError` about the empty stream instead of writing output or returning
normally. -/
theorem C9_empty_stream_error (write_metadata : Bool) (sep : String) :
    gff2csv [] write_metadata sep = Except.error "GFF stream is empty." := rfl

/-- Writing one address leaves every other address unchanged. -/
theorem AttrStore.read_write_ne (s : AttrStore) (a b : Nat) (d : AttrDict)
    (hne : a ≠ b) : (s.write a d).read b = s.read b := by
  rw [AttrStore.write, AttrStore.read, AttrStore.read, List.getD_eq_getElem?_getD,
    List.getD_eq_getElem?_getD]
  rw [show (s.cells.set a d)[b]? = s.cells[b]? from List.getElem?_set_ne hne]

/-- Allocation does not disturb existing addresses. -/
theorem AttrStore.read_alloc_old (s : AttrStore) (d : AttrDict) (b : Nat)
    (h : b < s.cells.length) : (s.alloc d).1.read b = s.read b := by
  rw [AttrStore.alloc, AttrStore.read, AttrStore.read, List.getD_eq_getElem?_getD,
    List.getD_eq_getElem?_getD]
  rw [show (s.cells ++ [d])[b]? = s.cells[b]? from List.getElem?_append_left h]

/-- The freshly allocated address holds the allocated dict. -/
theorem AttrStore.read_alloc_new (s : AttrStore) (d : AttrDict) :
    (s.alloc d).1.read (s.alloc d).2 = d := by
  rw [AttrStore.alloc, AttrStore.read, List.getD_eq_getElem?_getD,
    List.getElem?_concat_length]
  rfl

/-- **C10**: record copy isolation.  `GffLine.copy` returns a record with
the same metadata reference, equal columns, and an attribute dict equal to
but not aliased with the original's, so any in-place mutation of the
copy's attributes (adding, changing or removing keys — an arbitrary `f`)
leaves the original's attributes unchanged. -/
theorem C10_record_copy_isolation (s : AttrStore) (r : GffLineObj)
    (h : r.attributes < s.cells.length) :
    (GffLineObj.copy s r).2.metadata = r.metadata ∧
    (GffLineObj.copy s r).2.columns = r.columns ∧
    AttrStore.read (GffLineObj.copy s r).1 (GffLineObj.copy s r).2.attributes =
      AttrStore.read s r.attributes ∧
    (GffLineObj.copy s r).2.attributes ≠ r.attributes ∧
    ∀ f : AttrDict → AttrDict,
      AttrStore.read
        (mutateAttrs (GffLineObj.copy s r).1 (GffLineObj.copy s r).2.attributes f)
        r.attributes = AttrStore.read s r.attributes := by
  refine ⟨rfl, rfl, ?_, ?_, ?_⟩
  · exact AttrStore.read_alloc_new s (AttrStore.read s r.attributes)
  · show s.cells.length ≠ r.attributes
    omega
  · intro f
    rw [mutateAttrs]
    have e1 : (GffLineObj.copy s r).2.attributes = s.cells.length := rfl
    have e2 : (GffLineObj.copy s r).1 = (s.alloc (AttrStore.read s r.attributes)).1 := rfl
    rw [e1, e2, AttrStore.read_write_ne _ _ _ _ (by omega),
      AttrStore.read_alloc_old s _ _ h]


/-- Witness for C10: copying in the concrete store, then mutating the
copy's attributes, leaves the original's attributes unchanged. -/
theorem C10_record_copy_isolation_witness :
    (GffLineObj.copy scen_store scen_obj).2.attributes ≠ scen_obj.attributes ∧
    AttrStore.read
      (mutateAttrs (GffLineObj.copy scen_store scen_obj).1
        (GffLineObj.copy scen_store scen_obj).2.attributes
        (fun d => dictInsert d "offset" (AttrValue.int 5)))
      scen_obj.attributes = AttrStore.read scen_store scen_obj.attributes := by
  have hC := C10_record_copy_isolation scen_store scen_obj (by decide)
  exact ⟨hC.2.2.2.1, hC.2.2.2.2 _⟩
